import Mathlib

/-!
Verification of the document-vectorizer pipeline (src/vectorize.py).

Python strings are modelled as `List Char`; the Python builtins used by the
code (`str.__getitem__` slicing, `str.rfind`, `str.strip`) are embedded with
Python's semantics (negative-index clamping, last-occurrence search,
whitespace trimming at both ends).  The `chunk_text` while-loop is embedded
with explicit fuel, since its termination is exactly what is at stake.
-/

namespace Vectorize

/-- Python whitespace test for the ASCII range plus the common extra
whitespace code points recognised by `str.strip` / `str.isspace`. -/
def pyIsSpace (c : Char) : Bool :=
  c == ' ' || c == '\t' || c == '\n' || c == '\x0d' || c == '\x0b' ||
  c == '\x0c' || c == '\x1c' || c == '\x1d' || c == '\x1e' || c == '\x1f' ||
  c == '\x85' || c == ' '

/-- Clamp one slice bound the way Python does for `s[a:b]`: negative indices
count from the end, and everything is clamped into `[0, n]`. -/
def pySliceIndex (n : Nat) (i : Int) : Nat :=
  if i < 0 then (max (i + n) 0).toNat else min i.toNat n

/-- Python slicing `s[a:b]` on a string modelled as a `List Char`. -/
def pySlice (l : List Char) (a b : Int) : List Char :=
  let a2 := pySliceIndex l.length a
  let b2 := pySliceIndex l.length b
  (l.drop a2).take (b2 - a2)

/-- Python `s.rfind(c)`: index of the last occurrence of `c`, or `-1`. -/
def pyRfind (l : List Char) (c : Char) : Int :=
  match l with
  | [] => -1
  | x :: xs =>
    let r := pyRfind xs c
    if r ≠ -1 then r + 1
    else if x == c then 0
    else -1

/-- Python `s.strip()`: remove leading and trailing whitespace. -/
def pyStrip (l : List Char) : List Char :=
  ((l.dropWhile pyIsSpace).reverse.dropWhile pyIsSpace).reverse

/-- One iteration of the while-loop body of `chunk_text`
(src/vectorize.py lines 88-98): the chunk to append (before `.strip()`)
and the next value of `start`. -/
def chunkStep (text : List Char) (chunk_size overlap : Nat) (start : Int) :
    List Char × Int :=
  let endPos : Int := start + chunk_size
  let chunk := pySlice text start endPos
  if endPos < (text.length : Int) then
    let last_space := pyRfind chunk ' '
    if last_space ≠ -1 then
      (pySlice chunk 0 last_space, (start + last_space) - overlap)
    else
      (chunk, endPos - overlap)
  else
    (chunk, endPos - overlap)

/-- The while-loop of `chunk_text` (src/vectorize.py lines 87-101), with
fuel: `none` means the loop did not finish within `fuel` iterations.
Each iteration appends the stripped chunk and updates `start`; the loop
exits when `start >= len(text)` (checked both by the early `break` and by
the loop condition, which coincide). -/
def chunkTextGo (text : List Char) (chunk_size overlap : Nat) :
    Nat → Int → List (List Char) → Option (List (List Char))
  | 0, _, _ => none
  | fuel + 1, start, chunks =>
    if start < (text.length : Int) then
      let p := chunkStep text chunk_size overlap start
      let chunks2 := chunks ++ [pyStrip p.1]
      if (text.length : Int) ≤ p.2 then some chunks2
      else chunkTextGo text chunk_size overlap fuel p.2 chunks2
    else
      some chunks

/-- `chunk_text` (src/vectorize.py lines 82-103): run the loop from
`start = 0` with an empty accumulator, then drop falsy (empty) chunks. -/
def chunkTextFuel (fuel : Nat) (text : List Char) (chunk_size overlap : Nat) :
    Option (List (List Char)) :=
  (chunkTextGo text chunk_size overlap fuel 0 []).map
    (List.filter (fun c => !c.isEmpty))

/-- Trace variant of `chunkTextGo` that records each appended chunk as it is
before `.strip()`; used to state properties about pre-trim chunk lengths. -/
def chunkRawGo (text : List Char) (chunk_size overlap : Nat) :
    Nat → Int → List (List Char) → Option (List (List Char))
  | 0, _, _ => none
  | fuel + 1, start, chunks =>
    if start < (text.length : Int) then
      let p := chunkStep text chunk_size overlap start
      let chunks2 := chunks ++ [p.1]
      if (text.length : Int) ≤ p.2 then some chunks2
      else chunkRawGo text chunk_size overlap fuel p.2 chunks2
    else
      some chunks

/-- The pre-trim chunk trace of a `chunk_text` run. -/
def chunkRawFuel (fuel : Nat) (text : List Char) (chunk_size overlap : Nat) :
    Option (List (List Char)) :=
  chunkRawGo text chunk_size overlap fuel 0 []

/-! ### MD5 (RFC 1321), used by `generate_chunk_id`

Bytes are `Nat`s below 256; 32-bit words are `Nat`s reduced mod `2 ^ 32`. -/

/-- UTF-8 encoding of one character (Python `str.encode()`). -/
def utf8EncodeChar (c : Char) : List Nat :=
  let n := c.toNat
  if n < 0x80 then [n]
  else if n < 0x800 then [0xC0 + n / 0x40, 0x80 + n % 0x40]
  else if n < 0x10000 then
    [0xE0 + n / 0x1000, 0x80 + (n / 0x40) % 0x40, 0x80 + n % 0x40]
  else
    [0xF0 + n / 0x40000, 0x80 + (n / 0x1000) % 0x40,
     0x80 + (n / 0x40) % 0x40, 0x80 + n % 0x40]

/-- UTF-8 encoding of a string (Python `str.encode()`). -/
def utf8Encode (s : List Char) : List Nat :=
  (s.map utf8EncodeChar).flatten

/-- The 64 MD5 sine-table constants `K`. -/
def mdK : List Nat :=
  [0xd76aa478, 0xe8c7b756, 0x242070db, 0xc1bdceee,
   0xf57c0faf, 0x4787c62a, 0xa8304613, 0xfd469501,
   0x698098d8, 0x8b44f7af, 0xffff5bb1, 0x895cd7be,
   0x6b901122, 0xfd987193, 0xa679438e, 0x49b40821,
   0xf61e2562, 0xc040b340, 0x265e5a51, 0xe9b6c7aa,
   0xd62f105d, 0x02441453, 0xd8a1e681, 0xe7d3fbc8,
   0x21e1cde6, 0xc33707d6, 0xf4d50d87, 0x455a14ed,
   0xa9e3e905, 0xfcefa3f8, 0x676f02d9, 0x8d2a4c8a,
   0xfffa3942, 0x8771f681, 0x6d9d6122, 0xfde5380c,
   0xa4beea44, 0x4bdecfa9, 0xf6bb4b60, 0xbebfbc70,
   0x289b7ec6, 0xeaa127fa, 0xd4ef3085, 0x04881d05,
   0xd9d4d039, 0xe6db99e5, 0x1fa27cf8, 0xc4ac5665,
   0xf4292244, 0x432aff97, 0xab9423a7, 0xfc93a039,
   0x655b59c3, 0x8f0ccc92, 0xffeff47d, 0x85845dd1,
   0x6fa87e4f, 0xfe2ce6e0, 0xa3014314, 0x4e0811a1,
   0xf7537e82, 0xbd3af235, 0x2ad7d2bb, 0xeb86d391]

/-- The 64 MD5 per-round left-rotation amounts `s`. -/
def mdS : List Nat :=
  [7, 12, 17, 22, 7, 12, 17, 22, 7, 12, 17, 22, 7, 12, 17, 22,
   5,  9, 14, 20, 5,  9, 14, 20, 5,  9, 14, 20, 5,  9, 14, 20,
   4, 11, 16, 23, 4, 11, 16, 23, 4, 11, 16, 23, 4, 11, 16, 23,
   6, 10, 15, 21, 6, 10, 15, 21, 6, 10, 15, 21, 6, 10, 15, 21]

/-- 32-bit left rotation. -/
def rotl32 (x s : Nat) : Nat :=
  ((x <<< s) % 2 ^ 32) ||| (x >>> (32 - s))

/-- MD5 nonlinear function for round `i` of the main loop. -/
def md5F (i b c d : Nat) : Nat :=
  if i < 16 then (b &&& c) ||| ((0xffffffff ^^^ b) &&& d)
  else if i < 32 then (d &&& b) ||| ((0xffffffff ^^^ d) &&& c)
  else if i < 48 then b ^^^ c ^^^ d
  else c ^^^ (b ||| (0xffffffff ^^^ d))

/-- MD5 message-word index for round `i` of the main loop. -/
def md5G (i : Nat) : Nat :=
  if i < 16 then i
  else if i < 32 then (5 * i + 1) % 16
  else if i < 48 then (3 * i + 5) % 16
  else (7 * i) % 16

/-- One round of the MD5 main loop on state `(A, B, C, D)`. -/
def md5Round (m : List Nat) (st : Nat × Nat × Nat × Nat) (i : Nat) :
    Nat × Nat × Nat × Nat :=
  let (a, b, c, d) := st
  let f := (md5F i b c d + a + mdK.getD i 0 + m.getD (md5G i) 0) % 2 ^ 32
  (d, (b + rotl32 f (mdS.getD i 0)) % 2 ^ 32, b, c)

/-- Process one 16-word block, adding the mixed state back in mod `2 ^ 32`. -/
def md5Block (st : Nat × Nat × Nat × Nat) (m : List Nat) :
    Nat × Nat × Nat × Nat :=
  let r := (List.range 64).foldl (md5Round m) st
  ((st.1 + r.1) % 2 ^ 32, (st.2.1 + r.2.1) % 2 ^ 32,
   (st.2.2.1 + r.2.2.1) % 2 ^ 32, (st.2.2.2 + r.2.2.2) % 2 ^ 32)

/-- `k` little-endian bytes of `n`. -/
def toLEBytes : Nat → Nat → List Nat
  | 0, _ => []
  | k + 1, n => n % 256 :: toLEBytes k (n / 256)

/-- MD5 padding: `0x80`, zeros to 56 mod 64, then the 64-bit bit length. -/
def md5Pad (msg : List Nat) : List Nat :=
  msg ++ [0x80] ++ List.replicate ((119 - msg.length % 64) % 64) 0 ++
    toLEBytes 8 ((msg.length * 8) % 2 ^ 64)

/-- Split into 64-byte blocks, structurally recursing on a step bound. -/
def splitBlocksAux : Nat → List Nat → List (List Nat)
  | 0, _ => []
  | fuel + 1, l => if l.isEmpty then [] else l.take 64 :: splitBlocksAux fuel (l.drop 64)

/-- Split a padded message into 64-byte blocks (each step consumes at least
one byte, so `l.length + 1` steps always suffice). -/
def splitBlocks (l : List Nat) : List (List Nat) :=
  splitBlocksAux (l.length + 1) l

/-- The 16 little-endian 32-bit words of one 64-byte block. -/
def md5Words (block : List Nat) : List Nat :=
  (List.range 16).map fun i =>
    ((block.drop (4 * i)).take 4).foldr (fun b acc => b + 256 * acc) 0

/-- MD5 digest of a byte sequence, as 16 bytes. -/
def md5Digest (msg : List Nat) : List Nat :=
  let blocks := splitBlocks (md5Pad msg)
  let r := blocks.foldl (fun st blk => md5Block st (md5Words blk))
    (0x67452301, 0xefcdab89, 0x98badcfe, 0x10325476)
  toLEBytes 4 r.1 ++ toLEBytes 4 r.2.1 ++ toLEBytes 4 r.2.2.1 ++
    toLEBytes 4 r.2.2.2

/-- Lowercase hex digit. -/
def hexChar (n : Nat) : Char :=
  if n < 10 then Char.ofNat ('0'.toNat + n) else Char.ofNat ('a'.toNat + n - 10)

/-- Python `hashlib.md5(b).hexdigest()`: 32 lowercase hex characters. -/
def md5Hexdigest (msg : List Nat) : List Char :=
  ((md5Digest msg).map fun b => [hexChar (b / 16), hexChar (b % 16)]).flatten

/-- `generate_chunk_id` (src/vectorize.py lines 105-108): the string
`"{filename}_{chunk_index}_{content_hash}"` with `content_hash` the first 8
hex characters of the MD5 of the UTF-8 encoded chunk text. -/
def generateChunkId (filename : List Char) (chunk_index : Nat)
    (chunk_text : List Char) : List Char :=
  let content_hash := pySlice (md5Hexdigest (utf8Encode chunk_text)) 0 8
  filename ++ ('_' :: (Nat.repr chunk_index).data) ++ ('_' :: content_hash)

/-! ### `search_documents` (src/vectorize.py lines 164-187)

The Weaviate `near_text` call is an external collaborator; its outcome is an
input of the embedding: either an exception or a list of returned objects.
Property lookups via `properties.get` yield `Option`s (Python `None` when
absent); slicing `None` raises `TypeError`.  Scores are passed through
untouched, so their type is a parameter. -/

/-- A Python exception as observed by the `except` handler. -/
inductive PyErr where
  | typeError : PyErr
  | serviceError : PyErr
deriving DecidableEq

/-- An object returned by the similarity-search call. -/
structure WeaviateObject (σ : Type) where
  filename : Option (List Char)
  chunk_index : Option Int
  content : Option (List Char)
  score : σ

/-- One entry of the result list built by `search_documents`. -/
structure SearchResult (σ : Type) where
  filename : Option (List Char)
  chunk_index : Option Int
  content : List Char
  score : σ

/-- The dict built for one returned object (src/vectorize.py lines 177-182):
`obj.properties.get("content")[:200] + "..."` raises `TypeError` when the
content property is absent (`None`). -/
def buildResult {σ : Type} (obj : WeaviateObject σ) :
    Except PyErr (SearchResult σ) :=
  match obj.content with
  | none => .error .typeError
  | some c =>
    .ok { filename := obj.filename, chunk_index := obj.chunk_index,
          content := pySlice c 0 200 ++ "...".data, score := obj.score }

/-- The `for obj in response.objects` accumulation loop
(src/vectorize.py lines 175-182), propagating any raised exception. -/
def collectResults {σ : Type} :
    List (WeaviateObject σ) → Except PyErr (List (SearchResult σ))
  | [] => .ok []
  | obj :: rest => do
    let r ← buildResult obj
    let rs ← collectResults rest
    .ok (r :: rs)

/-- `search_documents` (src/vectorize.py lines 164-187): the whole body runs
inside `try`; any exception — from the similarity-search call itself or from
mapping a returned object — is caught and an empty list is returned. -/
def searchDocuments {σ : Type}
    (response : Except PyErr (List (WeaviateObject σ))) :
    List (SearchResult σ) :=
  match (do collectResults (← response) : Except PyErr _) with
  | .ok results => results
  | .error _ => []

example : md5Hexdigest (utf8Encode "".data) =
    "d41d8cd98f00b204e9800998ecf8427e".data := by decide

example : md5Hexdigest (utf8Encode "abc".data) =
    "900150983cd24fb0d6963f7d28e17f72".data := by decide

example : chunkTextFuel 10 "aaaa bbbb cccc dddd".data 10 2 =
    some ["aaaa bbbb".data, "bb cccc".data, "cc dddd".data] := by decide

example : chunkTextFuel 10 "aaaa".data 4 2 =
    some ["aaaa".data, "aa".data] := by decide

example : chunkTextFuel 10 " aaaa".data 4 1 = some ["aaa".data] := by decide

example : chunkTextFuel 10 " aaaa".data 5 1 =
    some ["aaaa".data, "a".data] := by decide

/-! ### Helper lemmas about the Python builtins -/

theorem pySlice_nat (l : List Char) (a b : Nat) :
    pySlice l (a : Int) (b : Int) = (l.drop a).take (b - a) := by
  unfold pySlice pySliceIndex
  have ha : ¬((a : Int) < 0) := by omega
  have hb : ¬((b : Int) < 0) := by omega
  simp only [if_neg ha, if_neg hb, Int.toNat_natCast]
  rcases Nat.le_total a l.length with h1 | h1
  · rw [Nat.min_eq_left h1]
    rcases Nat.le_total b l.length with h2 | h2
    · rw [Nat.min_eq_left h2]
    · rw [Nat.min_eq_right h2]
      have hlen : (l.drop a).length = l.length - a := l.length_drop a
      rw [List.take_of_length_le (by omega), List.take_of_length_le (by omega)]
  · rw [Nat.min_eq_right h1, List.drop_of_length_le h1, List.drop_length]
    simp

theorem pySlice_length_le (l : List Char) (a : Int) (k : Nat) :
    (pySlice l a (a + k)).length ≤ k := by
  unfold pySlice pySliceIndex
  simp only [List.length_take, List.length_drop]
  by_cases ha : a < 0 <;> by_cases hb : a + (k : Int) < 0 <;>
    simp only [if_pos, if_neg, ha, hb, ite_true, ite_false] <;> omega

theorem pySlice_length_le_length (l : List Char) (a b : Int) :
    (pySlice l a b).length ≤ l.length := by
  unfold pySlice pySliceIndex
  simp only [List.length_take, List.length_drop]
  by_cases ha : a < 0 <;> by_cases hb : b < 0 <;>
    simp only [if_pos, if_neg, ha, hb, ite_true, ite_false] <;> omega

theorem mem_pySlice (l : List Char) (a b : Int) (c : Char)
    (h : c ∈ pySlice l a b) : c ∈ l := by
  unfold pySlice at h
  exact List.mem_of_mem_drop (List.mem_of_mem_take h)

theorem pyRfind_ge_neg_one (l : List Char) (c : Char) : -1 ≤ pyRfind l c := by
  induction l with
  | nil => simp [pyRfind]
  | cons x xs ih =>
    rw [pyRfind]
    split
    · omega
    · split <;> omega

theorem pyRfind_eq_neg_one (l : List Char) (c : Char)
    (h : ∀ x ∈ l, x ≠ c) : pyRfind l c = -1 := by
  induction l with
  | nil => rfl
  | cons x xs ih =>
    have hxs : pyRfind xs c = -1 := ih fun y hy => h y (List.mem_cons_of_mem x hy)
    have hx : x ≠ c := h x (List.mem_cons_self x xs)
    rw [pyRfind, hxs]
    simp [hx]

theorem pyRfind_last (l : List Char) (c : Char) (j : Nat) (hj : j < l.length)
    (hjc : l.get ⟨j, hj⟩ = c)
    (hlast : ∀ k (hk : k < l.length), j < k → l.get ⟨k, hk⟩ ≠ c) :
    pyRfind l c = (j : Int) := by
  induction l generalizing j with
  | nil => simp at hj
  | cons x xs ih =>
    rw [pyRfind]
    cases j with
    | zero =>
      have hx : x = c := hjc
      have hxs : pyRfind xs c = -1 := by
        apply pyRfind_eq_neg_one
        intro y hy
        obtain ⟨n, hn, hny⟩ := List.mem_iff_getElem.mp hy
        have h2 := hlast (n + 1) (by simpa using hn) (by omega)
        simp only [List.get_eq_getElem, List.getElem_cons_succ] at h2
        rw [hny] at h2
        exact h2
      rw [hxs]
      simp [hx]
    | succ j2 =>
      have hj2 : j2 < xs.length := by simpa using hj
      have hr : pyRfind xs c = (j2 : Int) := by
        apply ih j2 hj2 (by simpa using hjc)
        intro k hk hgt
        have h2 := hlast (k + 1) (by simpa using hk) (by omega)
        simpa using h2
      rw [hr]
      rw [if_pos (by omega : ((j2 : Int)) ≠ -1)]
      push_cast
      ring

theorem length_dropWhile_le_self {p : Char → Bool} :
    ∀ l : List Char, (List.dropWhile p l).length ≤ l.length
  | [] => Nat.le_refl _
  | x :: xs => by
    by_cases h : p x
    · rw [List.dropWhile_cons_of_pos h]
      exact Nat.le_succ_of_le (length_dropWhile_le_self xs)
    · rw [List.dropWhile_cons_of_neg h]

theorem dropWhile_of_forall_neg {p : Char → Bool} (l : List Char)
    (h : ∀ c ∈ l, p c = false) : List.dropWhile p l = l := by
  cases l with
  | nil => rfl
  | cons x xs =>
    have hx : p x = false := h x (List.mem_cons_self x xs)
    exact List.dropWhile_cons_of_neg (by simp [hx])

theorem dropWhile_idem (p : Char → Bool) :
    ∀ l : List Char, List.dropWhile p (List.dropWhile p l) = List.dropWhile p l
  | [] => rfl
  | x :: xs => by
    by_cases h : p x
    · rw [List.dropWhile_cons_of_pos h]
      exact dropWhile_idem p xs
    · rw [List.dropWhile_cons_of_neg h, List.dropWhile_cons_of_neg h]

theorem pyStrip_eq_self (l : List Char) (h : ∀ c ∈ l, pyIsSpace c = false) :
    pyStrip l = l := by
  unfold pyStrip
  rw [dropWhile_of_forall_neg l h,
    dropWhile_of_forall_neg l.reverse (fun c hc => h c (List.mem_reverse.mp hc)),
    List.reverse_reverse]

theorem dropWhile_head_false {p : Char → Bool} (c : Char) (r : List Char)
    (h : List.dropWhile p (c :: r) = c :: r) : p c = false := by
  by_cases hc : p c
  · exfalso
    rw [List.dropWhile_cons_of_pos hc] at h
    have h1 := length_dropWhile_le_self (p := p) r
    have h2 := congrArg List.length h
    simp at h2
    omega
  · simpa using hc

theorem dropWhile_of_dropWhile_eq_self {p : Char → Bool} (l : List Char)
    (h : List.dropWhile p l = l) :
    List.dropWhile p ((l.reverse.dropWhile p).reverse) =
      (l.reverse.dropWhile p).reverse := by
  have h0 := List.takeWhile_append_dropWhile (p := p) (l := l.reverse)
  have hsplit := congrArg List.reverse h0
  rw [List.reverse_append, List.reverse_reverse] at hsplit
  cases hz : (l.reverse.dropWhile p).reverse with
  | nil => rfl
  | cons c z2 =>
    have hl : List.dropWhile p (c :: (z2 ++ (l.reverse.takeWhile p).reverse)) =
        c :: (z2 ++ (l.reverse.takeWhile p).reverse) := by
      rw [← List.cons_append, ← hz, hsplit]
      exact h
    have hc := dropWhile_head_false _ _ hl
    rw [List.dropWhile_cons_of_neg (by simp [hc])]

theorem pyStrip_idem (l : List Char) : pyStrip (pyStrip l) = pyStrip l := by
  have h1 : List.dropWhile pyIsSpace (pyStrip l) = pyStrip l := by
    unfold pyStrip
    exact dropWhile_of_dropWhile_eq_self _ (dropWhile_idem pyIsSpace l)
  conv_lhs => rw [pyStrip, h1]
  unfold pyStrip
  rw [List.reverse_reverse, dropWhile_idem]

/-! ### Claims -/

/-- An input on which the chunker loops forever although `overlap <
chunk_size`: the window always ends right after the text's only space, so
`start` returns to `0` on every iteration. -/
def loopingText : List Char := "aa aaaaaaaaaaaaaaaaaaaa".data

theorem chunkStep_loopingText (acc : List (List Char)) (m : Nat) :
    chunkTextGo loopingText 10 2 (m + 1) 0 acc =
      chunkTextGo loopingText 10 2 m 0 (acc ++ ["aa".data]) := by
  rfl

/-- C1: refuted — with `text = "aa " + "a" * 20`, `chunk_size = 10` and
`overlap = 2` (so `overlap < chunk_size`), `start` stays at `0` forever and
`chunk_text` never terminates: the fuelled loop returns `none` for every
fuel bound. -/
theorem chunk_text_c1_nonterminating (fuel : Nat) :
    chunkTextFuel fuel loopingText 10 2 = none := by
  have go : ∀ n acc, chunkTextGo loopingText 10 2 n 0 acc = none := by
    intro n
    induction n with
    | zero => intro acc; rfl
    | succ m ih =>
      intro acc
      rw [chunkStep_loopingText]
      exact ih _
  unfold chunkTextFuel
  rw [go fuel []]
  rfl

/-- C2: refuted — on `"aaaa bbbb cccc dddd"` with `chunk_size = 10`,
`overlap = 2`, the first chunk is `"aaaa bbbb"` (the last space before
position 10 is at index 9), not `"aaaa"`. -/
theorem chunk_text_c2_first_not_aaaa :
    chunkTextFuel 10 "aaaa bbbb cccc dddd".data 10 2 =
      some ["aaaa bbbb".data, "bb cccc".data, "cc dddd".data] ∧
    ("aaaa bbbb".data : List Char) ≠ "aaaa".data := by
  constructor
  · decide
  · decide

/-- C2 (amended): on `"aaaa bbbb cccc dddd"` with `chunk_size = 10`,
`overlap = 2`, the chunker breaks the first window at its last space
(index 9) and the first chunk is `"aaaa bbbb"`. -/
theorem chunk_text_c2_first_chunk :
    (chunkTextFuel 10 "aaaa bbbb cccc dddd".data 10 2).bind List.head? =
      some "aaaa bbbb".data ∧
    pyRfind (pySlice "aaaa bbbb cccc dddd".data 0 10) ' ' = 9 := by
  constructor
  · decide
  · decide

/-- C4: refuted — the code searches the window only for the space character
`' '` (`chunk.rfind(' ')`). On `"ab\ncdefgh"` with `chunk_size = 4`,
`overlap = 1`, the first window `"ab\nc"` is non-final and contains the
whitespace character `'\n'`, yet the chunk is a hard cut (the whole window),
not a break at that whitespace. -/
theorem chunk_text_c4_whitespace_not_honoured :
    ((0 : Int) + 4 < ("ab\ncdefgh".data.length : Int)) ∧
    '\n' ∈ pySlice "ab\ncdefgh".data 0 (0 + 4) ∧
    pyIsSpace '\n' = true ∧
    chunkStep "ab\ncdefgh".data 4 1 0 = (pySlice "ab\ncdefgh".data 0 (0 + 4), 3) ∧
    chunkTextFuel 10 "ab\ncdefgh".data 4 1 =
      some ["ab\nc".data, "cdef".data, "fgh".data] := by
  refine ⟨by decide, by decide, by decide, by decide, by decide⟩

/-- C8: refuted — chunk count is not monotone in `chunk_size`: on `" aaaa"`
with `overlap = 1`, `chunk_size = 4` yields one chunk while the larger
`chunk_size = 5` yields two. -/
theorem chunk_text_c8_count_not_monotone :
    chunkTextFuel 10 " aaaa".data 4 1 = some ["aaa".data] ∧
    chunkTextFuel 10 " aaaa".data 5 1 = some ["aaaa".data, "a".data] ∧
    ([("aaa".data : List Char)].length <
      [("aaaa".data : List Char), "a".data].length) := by
  refine ⟨by decide, by decide, by decide⟩

/-- C3: refuted — with a positive overlap, a whitespace-free text of length
exactly `chunk_size` yields a second, trailing chunk: `"aaaa"` with
`chunk_size = 4`, `overlap = 2` gives `["aaaa", "aa"]`, not one chunk. -/
theorem chunk_text_c3_two_chunks :
    chunkTextFuel 10 "aaaa".data 4 2 = some ["aaaa".data, "aa".data] ∧
    (["aaaa".data, "aa".data] : List (List Char)).length ≠ 1 := by
  refine ⟨by decide, by decide⟩

/-- C3 (amended): for `overlap = 0`, every text of length exactly
`chunk_size > 0` containing no whitespace characters yields exactly one
chunk, equal to the (already trimmed) input. -/
theorem chunk_text_c3_single_chunk (text : List Char) (cs fuel : Nat)
    (h1 : 0 < cs) (h2 : text.length = cs)
    (h3 : ∀ c ∈ text, pyIsSpace c = false) :
    chunkTextFuel (fuel + 1) text cs 0 = some [text] := by
  have hlen : (text.length : Int) = (cs : Int) := by exact_mod_cast congrArg Nat.cast h2
  have hchunk : pySlice text 0 (0 + (cs : Int)) = text := by
    have he : (0 : Int) + (cs : Int) = ((cs : Nat) : Int) := by ring
    rw [he]
    have hp := pySlice_nat text 0 cs
    simp only [Nat.cast_zero, List.drop_zero, Nat.sub_zero] at hp
    rw [hp, List.take_of_length_le (Nat.le_of_eq h2)]
  have hstep : chunkStep text cs 0 0 = (text, (cs : Int)) := by
    unfold chunkStep
    rw [if_neg (by rw [hlen]; omega : ¬((0 : Int) + (cs : Nat) < (text.length : Int)))]
    rw [hchunk]
    simp
  have hne : text ≠ [] := by
    intro hnil
    rw [hnil] at h2
    simp at h2
    omega
  unfold chunkTextFuel
  simp only [chunkTextGo, hstep]
  rw [if_pos (by rw [hlen]; exact_mod_cast h1 : (0 : Int) < (text.length : Int))]
  rw [if_pos (by rw [hlen] : (text.length : Int) ≤ ((text, (cs : Int)).2))]
  rw [pyStrip_eq_self text h3]
  simp only [List.filter, Option.map_some, List.nil_append]
  cases text with
  | nil => exact absurd rfl hne
  | cons x xs => rfl

/-- C3 amended claim instantiated: `"abc"` with `chunk_size = 3`,
`overlap = 0` gives exactly the single chunk `"abc"`. -/
theorem chunk_text_c3_witness :
    chunkTextFuel 1 "abc".data 3 0 = some ["abc".data] :=
  chunk_text_c3_single_chunk "abc".data 3 0 (by decide) (by decide) (by decide)

/-- C4 (amended): for every non-final window, the chunker breaks the chunk
at the last space character `' '` within the window (truncating the window
there and moving `end` back to it); only when the window contains no space
does it fall back to a hard cut of the whole window. -/
theorem chunk_text_c4_break_at_last_space (text : List Char) (cs ov : Nat)
    (start : Int) (w : List Char) (hw : w = pySlice text start (start + cs))
    (hnf : start + cs < (text.length : Int)) :
    (∀ j (hj : j < w.length), w.get ⟨j, hj⟩ = ' ' →
      (∀ k (hk : k < w.length), j < k → w.get ⟨k, hk⟩ ≠ ' ') →
      chunkStep text cs ov start = (w.take j, start + j - ov)) ∧
    ((∀ c ∈ w, c ≠ ' ') →
      chunkStep text cs ov start = (w, start + cs - ov)) := by
  constructor
  · intro j hj hjc hlast
    have hr : pyRfind w ' ' = (j : Int) := pyRfind_last w ' ' j hj hjc hlast
    unfold chunkStep
    rw [if_pos hnf, ← hw, hr, if_pos (by omega : ((j : Int)) ≠ -1)]
    have htake : pySlice w 0 (j : Int) = w.take j := by
      have hp := pySlice_nat w 0 j
      simpa using hp
    rw [htake]
  · intro hns
    have hr : pyRfind w ' ' = -1 := pyRfind_eq_neg_one w ' ' hns
    unfold chunkStep
    rw [if_pos hnf, ← hw, hr]
    simp

/-- C4 amended claim instantiated: on `"ab cdef"` with `chunk_size = 4`,
`overlap = 1`, the non-final window `"ab c"` has its last space at index 2,
so the appended chunk is `"ab"` and the next start is `2 - 1 = 1`. -/
theorem chunk_text_c4_witness :
    chunkStep "ab cdef".data 4 1 0 = ("ab".data, 1) :=
  (chunk_text_c4_break_at_last_space "ab cdef".data 4 1 0 "ab c".data
    (by decide) (by decide)).1 2 (by decide) (by decide) (by decide)

/-- C5: `generate_chunk_id` returns exactly
`"{stem}_{index}_{hash8}"` where `hash8` is the first 8 hex characters of
the MD5 of the UTF-8 encoded chunk text, and it is deterministic: equal
inputs give the identical ID. -/
theorem generate_chunk_id_c5 (stem : List Char) (i : Nat) (t : List Char) :
    generateChunkId stem i t =
      stem ++ ('_' :: (Nat.repr i).data) ++
        ('_' :: (md5Hexdigest (utf8Encode t)).take 8) ∧
    ∀ stem2 i2 t2, stem2 = stem → i2 = i → t2 = t →
      generateChunkId stem2 i2 t2 = generateChunkId stem i t := by
  constructor
  · unfold generateChunkId
    have h8 : pySlice (md5Hexdigest (utf8Encode t)) 0 8 =
        (md5Hexdigest (utf8Encode t)).take 8 := by
      simpa using pySlice_nat (md5Hexdigest (utf8Encode t)) 0 8
    rw [h8]
  · intro stem2 i2 t2 h1 hi ht
    rw [h1, hi, ht]

/-- C5 instantiated at `(stem, index, text) = ("doc", 1, "x")`. -/
theorem generate_chunk_id_c5_witness :
    generateChunkId "doc".data 1 "x".data =
      "doc".data ++ ('_' :: (Nat.repr 1).data) ++
        ('_' :: (md5Hexdigest (utf8Encode "x".data)).take 8) ∧
    generateChunkId "doc".data 1 "x".data =
      generateChunkId "doc".data 1 "x".data :=
  ⟨(generate_chunk_id_c5 "doc".data 1 "x".data).1,
   (generate_chunk_id_c5 "doc".data 1 "x".data).2 "doc".data 1 "x".data
     rfl rfl rfl⟩

theorem chunkTextGo_elems (text : List Char) (cs ov : Nat) :
    ∀ fuel (start : Int) acc l, chunkTextGo text cs ov fuel start acc = some l →
      ∀ c ∈ l, c ∈ acc ∨ ∃ r, c = pyStrip r := by
  intro fuel
  induction fuel with
  | zero =>
    intro start acc l h
    exact absurd h (by simp [chunkTextGo])
  | succ m ih =>
    intro start acc l h
    simp only [chunkTextGo] at h
    by_cases h1 : start < (text.length : Int)
    · rw [if_pos h1] at h
      by_cases h2 : (text.length : Int) ≤ (chunkStep text cs ov start).2
      · rw [if_pos h2] at h
        have hl := Option.some.inj h
        intro c hc
        rw [← hl] at hc
        rcases List.mem_append.mp hc with hacc | hone
        · exact Or.inl hacc
        · exact Or.inr ⟨_, List.mem_singleton.mp hone⟩
      · rw [if_neg h2] at h
        intro c hc
        rcases ih _ _ _ h c hc with hacc | hstrip
        · rcases List.mem_append.mp hacc with hacc2 | hone
          · exact Or.inl hacc2
          · exact Or.inr ⟨_, List.mem_singleton.mp hone⟩
        · exact Or.inr hstrip
    · rw [if_neg h1] at h
      have hl := Option.some.inj h
      intro c hc
      rw [← hl] at hc
      exact Or.inl hc

/-- C6: whenever `chunk_text` returns, every chunk in the returned list is
non-empty and already whitespace-trimmed (trimming it again is a no-op). -/
theorem chunk_text_c6_nonempty_trimmed (fuel : Nat) (text : List Char)
    (cs ov : Nat) (l : List (List Char))
    (h : chunkTextFuel fuel text cs ov = some l) :
    ∀ c ∈ l, c ≠ [] ∧ pyStrip c = c := by
  unfold chunkTextFuel at h
  cases hg : chunkTextGo text cs ov fuel 0 [] with
  | none => rw [hg] at h; simp at h
  | some l0 =>
    rw [hg] at h
    rw [show (some l0).map (List.filter fun c => !c.isEmpty) =
      some (l0.filter fun c => !c.isEmpty) from rfl] at h
    have hl := Option.some.inj h
    intro c hc
    rw [← hl] at hc
    have hmf := List.mem_filter.mp hc
    constructor
    · intro hnil
      rw [hnil] at hmf
      simp at hmf
    · rcases chunkTextGo_elems text cs ov fuel 0 [] l0 hg c hmf.1 with habs | ⟨r, hr⟩
      · simp at habs
      · rw [hr, pyStrip_idem]

/-- C6 instantiated: on `" aaaa"` with `chunk_size = 4`, `overlap = 1`, the
output is `["aaa"]`, and `"aaa"` is non-empty and trim-fixed. -/
theorem chunk_text_c6_witness :
    ("aaa".data : List Char) ≠ [] ∧ pyStrip "aaa".data = "aaa".data :=
  chunk_text_c6_nonempty_trimmed 10 " aaaa".data 4 1 ["aaa".data]
    (by decide) "aaa".data (by decide)

theorem chunkStep_fst_length_le (text : List Char) (cs ov : Nat)
    (start : Int) : (chunkStep text cs ov start).1.length ≤ cs := by
  simp only [chunkStep]
  split
  · split
    · exact le_trans (pySlice_length_le_length _ _ _)
        (pySlice_length_le text start cs)
    · exact pySlice_length_le text start cs
  · exact pySlice_length_le text start cs

theorem chunkRawGo_length (text : List Char) (cs ov : Nat) :
    ∀ fuel (start : Int) acc l, (∀ c ∈ acc, c.length ≤ cs) →
      chunkRawGo text cs ov fuel start acc = some l →
      ∀ c ∈ l, c.length ≤ cs := by
  intro fuel
  induction fuel with
  | zero =>
    intro start acc l hacc h
    exact absurd h (by simp [chunkRawGo])
  | succ m ih =>
    intro start acc l hacc h
    have hacc2 : ∀ c ∈ acc ++ [(chunkStep text cs ov start).1], c.length ≤ cs := by
      intro c hc
      rcases List.mem_append.mp hc with hc2 | hc2
      · exact hacc c hc2
      · rw [List.mem_singleton.mp hc2]
        exact chunkStep_fst_length_le text cs ov start
    simp only [chunkRawGo] at h
    by_cases h1 : start < (text.length : Int)
    · rw [if_pos h1] at h
      by_cases h2 : (text.length : Int) ≤ (chunkStep text cs ov start).2
      · rw [if_pos h2] at h
        rw [← Option.some.inj h]
        exact hacc2
      · rw [if_neg h2] at h
        exact ih _ _ _ hacc2 h
    · rw [if_neg h1] at h
      rw [← Option.some.inj h]
      exact hacc

theorem chunkRawGo_map_strip (text : List Char) (cs ov : Nat) :
    ∀ fuel (start : Int) acc,
      chunkTextGo text cs ov fuel start (acc.map pyStrip) =
        (chunkRawGo text cs ov fuel start acc).map (List.map pyStrip) := by
  intro fuel
  induction fuel with
  | zero => intro start acc; rfl
  | succ m ih =>
    intro start acc
    simp only [chunkTextGo, chunkRawGo]
    by_cases h1 : start < (text.length : Int)
    · rw [if_pos h1, if_pos h1]
      rw [show acc.map pyStrip ++ [pyStrip (chunkStep text cs ov start).1] =
        (acc ++ [(chunkStep text cs ov start).1]).map pyStrip from by simp]
      by_cases h2 : (text.length : Int) ≤ (chunkStep text cs ov start).2
      · rw [if_pos h2, if_pos h2]
        rfl
      · rw [if_neg h2, if_neg h2]
        exact ih _ _
    · rw [if_neg h1, if_neg h1]
      rfl

/-- C7: every chunk appended by `chunk_text` — the final one included — is
at most `chunk_size` characters long before trimming, and the returned list
is exactly the trim-then-drop-empties image of that pre-trim trace. -/
theorem chunk_text_c7_pretrim_length (fuel : Nat) (text : List Char)
    (cs ov : Nat) (raws : List (List Char)) (hcs : 0 < cs)
    (h : chunkRawFuel fuel text cs ov = some raws) :
    (∀ c ∈ raws, c.length ≤ cs) ∧
    chunkTextFuel fuel text cs ov =
      some ((raws.map pyStrip).filter (fun c => !c.isEmpty)) := by
  constructor
  · exact chunkRawGo_length text cs ov fuel 0 [] raws (by simp) h
  · unfold chunkTextFuel
    have hlink := chunkRawGo_map_strip text cs ov fuel 0 []
    simp only [List.map_nil] at hlink
    unfold chunkRawFuel at h
    rw [hlink, h]
    rfl

/-- C7 instantiated: on `" aaaa"` with `chunk_size = 4`, `overlap = 1`, the
pre-trim chunks are `["", "", "aaa"]`, all of length at most 4. -/
theorem chunk_text_c7_witness :
    (∀ c ∈ [([] : List Char), [], "aaa".data], c.length ≤ 4) ∧
    chunkTextFuel 10 " aaaa".data 4 1 =
      some ((([([] : List Char), [], "aaa".data]).map pyStrip).filter
        (fun c => !c.isEmpty)) :=
  chunk_text_c7_pretrim_length 10 " aaaa".data 4 1 [[], [], "aaa".data]
    (by decide) (by decide)

/-- Number of loop iterations of the chunker on space-free text: one per
`chunk_size - overlap` characters of remaining text, rounded up. -/
def chunkCount (d r : Nat) : Nat :=
  if h : d = 0 ∨ r = 0 then 0 else 1 + chunkCount d (r - d)
termination_by r
decreasing_by omega

theorem chunkCount_zero (d : Nat) : chunkCount d 0 = 0 := by
  rw [chunkCount]
  simp

theorem chunkCount_pos_eq (d r : Nat) (hd : d ≠ 0) (hr : r ≠ 0) :
    chunkCount d r = 1 + chunkCount d (r - d) := by
  rw [chunkCount, dif_neg (by omega)]

theorem chunkCount_mono_aux (d : Nat) :
    ∀ n r r2, r2 ≤ n → r ≤ r2 → chunkCount d r ≤ chunkCount d r2 := by
  intro n
  induction n with
  | zero =>
    intro r r2 hb hle
    have : r = 0 := by omega
    have h2 : r2 = 0 := by omega
    rw [this, h2]
  | succ m ih =>
    intro r r2 hb hle
    by_cases hd : d = 0
    · rw [hd, chunkCount, chunkCount]
      simp
    by_cases hr : r = 0
    · rw [hr, chunkCount_zero]
      exact Nat.zero_le _
    have hr2 : r2 ≠ 0 := by omega
    rw [chunkCount_pos_eq d r hd hr, chunkCount_pos_eq d r2 hd hr2]
    have := ih (r - d) (r2 - d) (by omega) (by omega)
    omega

theorem chunkCount_anti_aux :
    ∀ n r d1 d2, r ≤ n → 0 < d1 → d1 ≤ d2 →
      chunkCount d2 r ≤ chunkCount d1 r := by
  intro n
  induction n with
  | zero =>
    intro r d1 d2 hb _ _
    have : r = 0 := by omega
    rw [this, chunkCount_zero, chunkCount_zero]
  | succ m ih =>
    intro r d1 d2 hb hd1 hle
    by_cases hr : r = 0
    · rw [hr, chunkCount_zero, chunkCount_zero]
    have hd1n : d1 ≠ 0 := by omega
    have hd2n : d2 ≠ 0 := by omega
    rw [chunkCount_pos_eq d2 r hd2n hr, chunkCount_pos_eq d1 r hd1n hr]
    have ha : chunkCount d2 (r - d2) ≤ chunkCount d2 (r - d1) :=
      chunkCount_mono_aux d2 (r - d1) (r - d2) (r - d1) (Nat.le_refl _) (by omega)
    have hb2 : chunkCount d2 (r - d1) ≤ chunkCount d1 (r - d1) :=
      ih (r - d1) d1 d2 (by omega) hd1 hle
    omega

theorem chunkStep_no_space (text : List Char) (cs ov : Nat)
    (h : ∀ c ∈ text, c ≠ ' ') (start : Int) :
    chunkStep text cs ov start =
      (pySlice text start (start + cs), start + cs - ov) := by
  have hw : pyRfind (pySlice text start (start + cs)) ' ' = -1 :=
    pyRfind_eq_neg_one _ _ (fun x hx => h x (mem_pySlice _ _ _ _ hx))
  simp only [chunkStep]
  split
  · rw [hw]
    simp
  · rfl

theorem window_take_drop (text : List Char) (cs start : Nat) :
    pySlice text (start : Int) ((start : Int) + (cs : Int)) =
      (text.drop start).take cs := by
  have he : ((start : Int) + (cs : Int)) = (((start + cs : Nat)) : Int) := by
    push_cast
    ring
  rw [he, pySlice_nat]
  congr 1
  omega

theorem chunkTextGo_no_ws (text : List Char) (cs ov : Nat)
    (hws : ∀ c ∈ text, pyIsSpace c = false) (hov : ov < cs) :
    ∀ fuel (start : Nat) acc, start < text.length →
      text.length - start ≤ fuel * (cs - ov) →
      ∃ tail, chunkTextGo text cs ov fuel (start : Int) acc =
          some (acc ++ tail) ∧
        tail.length = chunkCount (cs - ov) (text.length - start) ∧
        ∀ c ∈ tail, c ≠ [] := by
  intro fuel
  induction fuel with
  | zero =>
    intro start acc h1 h2
    exfalso
    omega
  | succ m ih =>
    intro start acc h1 h2
    have hnospace : ∀ c ∈ text, c ≠ ' ' := by
      intro c hc heq
      exact absurd (heq ▸ hws c hc) (by decide)
    have hstep := chunkStep_no_space text cs ov hnospace (start : Int)
    have hwexpr := window_take_drop text cs start
    have hwne : (text.drop start).take cs ≠ [] := by
      have hlen : ((text.drop start).take cs).length =
          min cs (text.length - start) := by simp
      intro h0
      rw [h0] at hlen
      simp at hlen
      omega
    have hwmem : ∀ c ∈ (text.drop start).take cs, pyIsSpace c = false :=
      fun c hc => hws c (List.mem_of_mem_drop (List.mem_of_mem_take hc))
    have hstart2 : (start : Int) + (cs : Int) - (ov : Int) =
        (((start + (cs - ov) : Nat)) : Int) := by omega
    have hd : cs - ov ≠ 0 := by omega
    simp only [chunkTextGo]
    rw [if_pos (by exact_mod_cast h1 : ((start : Nat) : Int) < (text.length : Int))]
    rw [hstep, hwexpr]
    simp only
    rw [hstart2, pyStrip_eq_self _ hwmem]
    by_cases hdone : text.length ≤ start + (cs - ov)
    · rw [if_pos (by exact_mod_cast hdone)]
      refine ⟨[(text.drop start).take cs], rfl, ?_, ?_⟩
      · rw [chunkCount_pos_eq _ _ hd (by omega),
          show text.length - start - (cs - ov) = 0 from by omega,
          chunkCount_zero]
        rfl
      · intro c hc
        rw [List.mem_singleton.mp hc]
        exact hwne
    · rw [if_neg (by exact_mod_cast hdone)]
      rw [Nat.succ_mul] at h2
      obtain ⟨tail, htail, hlen2, hne2⟩ :=
        ih (start + (cs - ov)) (acc ++ [(text.drop start).take cs])
          (by omega) (by omega)
      refine ⟨(text.drop start).take cs :: tail, ?_, ?_, ?_⟩
      · rw [htail]
        simp
      · rw [List.length_cons, hlen2,
          chunkCount_pos_eq _ _ hd (by omega : text.length - start ≠ 0),
          show text.length - start - (cs - ov) =
            text.length - (start + (cs - ov)) from by omega]
        omega
      · intro c hc
        rcases List.mem_cons.mp hc with hc2 | hc2
        · rw [hc2]
          exact hwne
        · exact hne2 c hc2

theorem chunkTextFuel_no_ws (text : List Char) (cs ov : Nat)
    (hws : ∀ c ∈ text, pyIsSpace c = false) (hov : ov < cs) :
    ∃ l, chunkTextFuel (text.length + 1) text cs ov = some l ∧
      l.length = chunkCount (cs - ov) text.length := by
  by_cases h0 : text.length = 0
  · have hnil : text = [] := List.eq_nil_of_length_eq_zero h0
    refine ⟨[], ?_, ?_⟩
    · rw [hnil]
      rfl
    · rw [h0, chunkCount_zero]
      rfl
  · have hfuel : text.length - 0 ≤ (text.length + 1) * (cs - ov) := by
      have hm : (text.length + 1) * 1 ≤ (text.length + 1) * (cs - ov) :=
        Nat.mul_le_mul_left _ (by omega)
      rw [Nat.mul_one] at hm
      omega
    obtain ⟨tail, htail, hlen2, hne2⟩ :=
      chunkTextGo_no_ws text cs ov hws hov (text.length + 1) 0 []
        (by omega) hfuel
    simp only [Nat.cast_zero, List.nil_append] at htail
    refine ⟨tail, ?_, ?_⟩
    · unfold chunkTextFuel
      rw [htail]
      show some (tail.filter fun c => !c.isEmpty) = some tail
      have hfe : tail.filter (fun c => !c.isEmpty) = tail := by
        apply List.filter_eq_self.mpr
        intro a ha
        cases a with
        | nil => exact absurd rfl (hne2 [] ha)
        | cons x xs => rfl
      rw [hfe]
    · rw [hlen2, Nat.sub_zero]

/-- C8 (amended): for a fixed text containing no whitespace and a fixed
overlap, the chunk count is monotonically non-increasing in `chunk_size`:
if `overlap < chunk_size1 ≤ chunk_size2` then the run with `chunk_size2`
produces at most as many chunks as the run with `chunk_size1`. -/
theorem chunk_text_c8_monotone_no_ws (text : List Char) (ov cs1 cs2 : Nat)
    (hws : ∀ c ∈ text, pyIsSpace c = false) (h1 : ov < cs1)
    (h12 : cs1 ≤ cs2) :
    ∃ l1 l2, chunkTextFuel (text.length + 1) text cs1 ov = some l1 ∧
      chunkTextFuel (text.length + 1) text cs2 ov = some l2 ∧
      l2.length ≤ l1.length := by
  obtain ⟨l1, e1, n1⟩ := chunkTextFuel_no_ws text cs1 ov hws h1
  obtain ⟨l2, e2, n2⟩ := chunkTextFuel_no_ws text cs2 ov hws (by omega)
  refine ⟨l1, l2, e1, e2, ?_⟩
  rw [n1, n2]
  exact chunkCount_anti_aux text.length text.length (cs1 - ov) (cs2 - ov)
    (Nat.le_refl _) (by omega) (by omega)

/-- C8 amended claim instantiated: on `"aaaa"` with `overlap = 1`, the run
with `chunk_size = 3` produces at most as many chunks as `chunk_size = 2`. -/
theorem chunk_text_c8_witness :
    ∃ l1 l2, chunkTextFuel ("aaaa".data.length + 1) "aaaa".data 2 1 = some l1 ∧
      chunkTextFuel ("aaaa".data.length + 1) "aaaa".data 3 1 = some l2 ∧
      l2.length ≤ l1.length :=
  chunk_text_c8_monotone_no_ws "aaaa".data 1 2 3 (by decide) (by decide)
    (by decide)

theorem collectResults_error {σ : Type} :
    ∀ (objs : List (WeaviateObject σ)) obj, obj ∈ objs →
      (∃ e, buildResult obj = .error e) →
      ∃ e2, collectResults objs = .error e2 := by
  intro objs
  induction objs with
  | nil =>
    intro obj h
    exact absurd h (List.not_mem_nil _)
  | cons o rest ih =>
    intro obj hmem ⟨e, he⟩
    rcases List.mem_cons.mp hmem with hobj | hobj
    · rw [hobj] at he
      exact ⟨e, by simp only [collectResults, he]; rfl⟩
    · cases hb : buildResult o with
      | error e3 => exact ⟨e3, by simp only [collectResults, hb]; rfl⟩
      | ok r =>
        obtain ⟨e2, he2⟩ := ih obj hobj ⟨e, he⟩
        refine ⟨e2, ?_⟩
        simp only [collectResults, hb, he2]
        rfl

/-- C9: if the underlying similarity-search call raises, or mapping any
returned object raises (absent content property), `search_documents`
returns the empty list instead of propagating the exception. -/
theorem search_documents_c9_empty_on_failure {σ : Type}
    (response : Except PyErr (List (WeaviateObject σ)))
    (h : (∃ e, response = .error e) ∨
      ∃ objs obj, response = .ok objs ∧ obj ∈ objs ∧
        ∃ e, buildResult obj = .error e) :
    searchDocuments response = [] := by
  rcases h with ⟨e, he⟩ | ⟨objs, obj, hok, hmem, herr⟩
  · rw [he]
    rfl
  · rw [hok]
    obtain ⟨e2, he2⟩ := collectResults_error objs obj hmem herr
    have hsd : searchDocuments (Except.ok objs) =
        match collectResults objs with
        | .ok results => results
        | .error _ => ([] : List (SearchResult σ)) := rfl
    rw [hsd, he2]

/-- C9 instantiated: a failing similarity-search call yields `[]`. -/
theorem search_documents_c9_witness :
    searchDocuments (σ := Unit) (.error .serviceError) = [] :=
  search_documents_c9_empty_on_failure (.error .serviceError)
    (Or.inl ⟨.serviceError, rfl⟩)

/-- C10: for every successfully mapped search result, the displayed content
is the first 200 characters of the stored content with `"..."` appended
unconditionally — in particular, when the stored content has at most 200
characters the ellipsis is still appended even though nothing was cut. -/
theorem search_documents_c10_preview {σ : Type} (obj : WeaviateObject σ)
    (c : List Char) (h : obj.content = some c) :
    ∃ r, buildResult obj = .ok r ∧ searchDocuments (.ok [obj]) = [r] ∧
      r.content = c.take 200 ++ "...".data ∧
      (c.length ≤ 200 → r.content = c ++ "...".data) := by
  have htake : pySlice c 0 200 = c.take 200 := by
    simpa using pySlice_nat c 0 200
  have hbuild : buildResult obj =
      .ok { filename := obj.filename, chunk_index := obj.chunk_index,
            content := pySlice c 0 200 ++ "...".data, score := obj.score } := by
    unfold buildResult
    rw [h]
  refine ⟨_, hbuild, ?_, ?_, ?_⟩
  · have hsd : searchDocuments (Except.ok [obj]) =
        match collectResults [obj] with
        | .ok results => results
        | .error _ => ([] : List (SearchResult σ)) := rfl
    rw [hsd]
    simp only [collectResults, hbuild]
    rfl
  · simp only
    rw [htake]
  · intro hle
    simp only
    rw [htake, List.take_of_length_le hle]

/-- C10 instantiated: stored content `"hi"` (2 ≤ 200 characters) is
displayed as `"hi..."` — the ellipsis is appended although nothing was
truncated. -/
theorem search_documents_c10_witness :
    ∃ r, buildResult (⟨some "f".data, some 0, some "hi".data, 0⟩ :
        WeaviateObject Nat) = .ok r ∧
      searchDocuments (.ok [(⟨some "f".data, some 0, some "hi".data, 0⟩ :
        WeaviateObject Nat)]) = [r] ∧
      r.content = "hi".data.take 200 ++ "...".data ∧
      ("hi".data.length ≤ 200 → r.content = "hi".data ++ "...".data) :=
  search_documents_c10_preview
    (⟨some "f".data, some 0, some "hi".data, 0⟩ : WeaviateObject Nat)
    "hi".data rfl

end Vectorize
